import Mathlib

/-!
Verification of the Subtitle Synchronization & Segmentation Engine.

Shallow embedding of the subtitle pipeline:
  * `subtitle_generator.py` — overlap resolution (`fix_overlaps`) and the
    bilingual ASS text assembly (`generate_styled_ass`, dialogue-text part);
  * `sentence_subtitle_optimizer.py` — sentence merging
    (`merge_subtitles_by_sentence`), duration-aware splitting
    (`split_long_sentence_by_duration`) and the gentle overlap fixer
    (`fix_overlaps_gentle`);
  * `audio_analyzer.py` — the frame-range slice (`_get_frames_in_range`,
    `extract_audio_features`), speech-activity detection
    (`_detect_speech_activity`) and timestamp adjustment
    (`adjust_subtitle_timing`).

Modelling conventions:
  * Times are integral milliseconds (`Int`).  `fix_overlaps` stores times as
    ASS "h:mm:ss.cs" strings; every value that flows through it is a multiple
    of 10 ms (`parse_time_to_ms` returns `(...)*1000 + cs*10` and the rewrites
    add/subtract multiples of 10), and for such non-negative values
    `parse_time_to_ms (ms_to_ass_time x) = x` exactly, so the string
    round-trip is modelled by keeping plain integers.
  * Audio energies (dB floats in the source, constrained to [-60,0] by the
    parser) are modelled as exact rationals `Rat`.  Python float arithmetic
    on these values is modelled by exact rational arithmetic.
  * Python `int(x)` (truncation toward zero) on a rational value is modelled
    with `Int.tdiv`.
-/

namespace YtScraper

/-- A subtitle cue as carried by `fix_overlaps` / `fix_overlaps_gentle`
    (the source uses dicts with keys `start`/`end`/`english`/`chinese`;
    times in ms, see module conventions). -/
structure Cue where
  start_ms : Int
  end_ms : Int
  english : String
  chinese : String
deriving DecidableEq, Repr

/-- One inner pass of `fix_overlaps` (`subtitle_generator.py`, the
    `for i in range(len(sorted_entries) - 1)` loop).  Each pair `(current,
    next_entry)` is visited left to right; only `current['end']` is ever
    written, so the value read for each pair is the original value of this
    pass. -/
def fixPass (min_gap_ms : Int) : List Cue → List Cue
  | [] => []
  | [c] => [c]
  | c :: next :: rest =>
    let c2 :=
      if c.end_ms > next.start_ms - min_gap_ms then
        { c with end_ms := max (c.start_ms + 500) (next.start_ms - min_gap_ms) }
      else c
    c2 :: fixPass min_gap_ms (next :: rest)

/-- The `has_overlap` flag computed during a pass of `fix_overlaps`:
    some adjacent pair of the pass input violates the minimum gap.
    (The flag tests values that the pass has not yet modified, so it is a
    function of the pass input.) -/
def hasOverlap (min_gap_ms : Int) : List Cue → Bool
  | c :: next :: rest =>
    decide (c.end_ms > next.start_ms - min_gap_ms) || hasOverlap min_gap_ms (next :: rest)
  | _ => false

/-- The `for iteration in range(max_iterations)` loop of `fix_overlaps`,
    instrumented with the number of passes executed (the source logs
    `iteration + 1` on early exit).  A pass always runs; the loop continues
    only while the pass found an overlap. -/
def fixLoopCounted (min_gap_ms : Int) : Nat → List Cue → List Cue × Nat
  | 0, l => (l, 0)
  | n + 1, l =>
    let hov := hasOverlap min_gap_ms l
    let l2 := fixPass min_gap_ms l
    if hov then
      let r := fixLoopCounted min_gap_ms n l2
      (r.1, r.2 + 1)
    else
      (l2, 1)

/-- `fix_overlaps(entries, min_gap_ms)` of `subtitle_generator.py`,
    on an input already sorted by start time (the source first runs the
    stable `sorted(..., key=start)`, which is the identity there;
    theorems about this function carry a sortedness hypothesis). -/
def fix_overlaps (min_gap_ms : Int) (entries : List Cue) : List Cue :=
  (fixLoopCounted min_gap_ms 5 entries).1

/-- Number of passes `fix_overlaps` executed (1..5). -/
def fixOverlapsPassCount (min_gap_ms : Int) (entries : List Cue) : Nat :=
  (fixLoopCounted min_gap_ms 5 entries).2

/-- The input order assumed by `fix_overlaps` after its stable sort:
    non-decreasing start times. -/
def sortedByStart : List Cue → Bool
  | c :: next :: rest => decide (c.start_ms ≤ next.start_ms) && sortedByStart (next :: rest)
  | _ => true

/-- `fix_overlaps_gentle(subtitles, min_gap_ms)` of
    `sentence_subtitle_optimizer.py`: the single pass over adjacent pairs.
    When pair `i` overlaps, either `current['end']` is shrunk to
    `next_start - min_gap_ms` (if that leaves at least 1000 ms of display
    time) or `next_sub['start']` is delayed to `current_end + min_gap_ms`;
    the delayed start is visible to the following pair, which the recursion
    models by passing the updated `next` on. -/
def fixOverlapsGentleLoop (min_gap_ms : Int) : List Cue → List Cue
  | [] => []
  | [c] => [c]
  | c :: next :: rest =>
    if c.end_ms > next.start_ms - min_gap_ms then
      let ideal_end := next.start_ms - min_gap_ms
      if ideal_end ≥ c.start_ms + 1000 then
        { c with end_ms := ideal_end } :: fixOverlapsGentleLoop min_gap_ms (next :: rest)
      else
        c :: fixOverlapsGentleLoop min_gap_ms
          ({ next with start_ms := c.end_ms + min_gap_ms } :: rest)
    else
      c :: fixOverlapsGentleLoop min_gap_ms (next :: rest)
termination_by l => l.length

/-- `fix_overlaps_gentle` entry point: lists of length ≤ 1 are returned
    unchanged (`if len(subtitles) <= 1: return`); the in-place mutation is
    modelled by returning the updated list. -/
def fix_overlaps_gentle (min_gap_ms : Int) (subtitles : List Cue) : List Cue :=
  if subtitles.length ≤ 1 then subtitles else fixOverlapsGentleLoop min_gap_ms subtitles

/-- A caption fragment as parsed by `parse_srt_file`
    (`sentence_subtitle_optimizer.py`). -/
structure SubtitleEntry where
  index : Int
  start_ms : Int
  end_ms : Int
  text : String
deriving DecidableEq, Repr

/-- The sentence-terminal markers of `is_sentence_end`. -/
def sentenceEndMarkers : List String := [".", "!", "?", "。", "！", "？", "...", "…"]

/-- `is_sentence_end(text)`: the stripped text ends with one of the
    terminal markers. -/
def is_sentence_end (text : String) : Bool :=
  sentenceEndMarkers.any (fun m => text.trim.endsWith m)

/-- The accumulation loop of `merge_subtitles_by_sentence`, returning the
    groups of member fragments (the source emits
    `(group[0].start_ms, group[-1].end_ms, ' '.join texts)` per group;
    `mergeGroups` keeps the member lists so that completeness can be
    stated). -/
def mergeLoop : List SubtitleEntry → String → List SubtitleEntry → List (List SubtitleEntry)
  | current_group, _, [] =>
    if current_group.isEmpty then [] else [current_group]
  | current_group, current_text, entry :: rest =>
    if is_sentence_end current_text || current_text.endsWith "\"" then
      current_group :: mergeLoop [entry] entry.text rest
    else
      let group2 := current_group ++ [entry]
      let text2 := current_text ++ " " ++ entry.text
      if 5 ≤ group2.length then
        group2 :: mergeLoop [] "" rest
      else
        mergeLoop group2 text2 rest

/-- The grouping computed by `merge_subtitles_by_sentence`: the first entry
    seeds the accumulator, the loop consumes the rest. -/
def mergeGroups : List SubtitleEntry → List (List SubtitleEntry)
  | [] => []
  | e :: rest => mergeLoop [e] e.text rest

/-- `merge_subtitles_by_sentence(entries)`: per group,
    `(group[0].start_ms, group[-1].end_ms, ' '.join(texts))`.
    (Groups are never empty, so the `headD`/`getLastD` defaults are inert.) -/
def merge_subtitles_by_sentence (entries : List SubtitleEntry) : List (Int × Int × String) :=
  (mergeGroups entries).map (fun group =>
    ((group.headD ⟨0, 0, 0, ""⟩).start_ms,
     (group.getLastD ⟨0, 0, 0, ""⟩).end_ms,
     String.intercalate " " (group.map SubtitleEntry.text)))

/-- Python `str.strip()` on a character list (ASCII whitespace; the
    punctuation involved here is never whitespace). -/
def pstrip (l : List Char) : List Char :=
  ((l.dropWhile Char.isWhitespace).reverse.dropWhile Char.isWhitespace).reverse

/-- Major split characters of `split_long_sentence_by_duration`
    (5–10 s spans). -/
def majorSplitChars : List Char := ['.', '!', '?', '。', '！', '？']

/-- Extended split characters (≥ 10 s spans). -/
def allSplitChars : List Char :=
  ['.', '!', '?', '。', '！', '？', ',', '，', ';', '；', ':', '：']

/-- The character scan of `split_long_sentence_by_duration`: accumulate
    into `current_part`, close a (stripped) part right after any split
    character, and append a trailing non-empty stripped remainder. -/
def scanPartsGo (split_chars : List Char) (current_part : List Char) :
    List Char → List (List Char)
  | [] => if pstrip current_part ≠ [] then [pstrip current_part] else []
  | ch :: rest =>
    let part2 := current_part ++ [ch]
    if split_chars.contains ch then
      pstrip part2 :: scanPartsGo split_chars [] rest
    else
      scanPartsGo split_chars part2 rest

/-- A leaf text segment `(start_ms, end_ms, text)`. -/
structure Segment where
  start_ms : Int
  end_ms : Int
  text : String
deriving DecidableEq, Repr

/-- The time-allocation loop of `split_long_sentence_by_duration`:
    every non-last part gets `int(total_duration * len(part)/total_chars)`
    (at least 1000 ms), the last part runs to `end_ms`; `current_time`
    propagates forward.  Python's `int(float)` truncation of the
    proportional share is modelled by exact truncated division. -/
def allocateParts (start_ms end_ms total_chars : Int) (current_time : Int) :
    List (List Char) → List Segment
  | [] => []
  | [p] => [⟨current_time, end_ms, String.mk p⟩]
  | p :: q :: rest =>
    let part_duration := ((end_ms - start_ms) * (p.length : Int)).tdiv total_chars
    let part_end0 := current_time + part_duration
    let part_end := if part_end0 - current_time < 1000 then current_time + 1000 else part_end0
    ⟨current_time, part_end, String.mk p⟩ ::
      allocateParts start_ms end_ms total_chars part_end (q :: rest)

/-- The final fix-up `segments[-1] = (segments[-1][0], end_ms, segments[-1][2])`. -/
def setLastEnd (end_ms : Int) : List Segment → List Segment
  | [] => []
  | [seg] => [⟨seg.start_ms, end_ms, seg.text⟩]
  | seg :: rest => seg :: setLastEnd end_ms rest

/-- `split_long_sentence_by_duration(start_ms, end_ms, text)` of
    `sentence_subtitle_optimizer.py`.  The float comparisons
    `duration_sec < 5` / `< 10` are exact integer comparisons
    `end_ms - start_ms < 5000` / `< 10000` for integral inputs. -/
def split_long_sentence_by_duration (start_ms end_ms : Int) (text : String) : List Segment :=
  if end_ms - start_ms < 5000 then [⟨start_ms, end_ms, text⟩]
  else
    let split_chars := if end_ms - start_ms < 10000 then majorSplitChars else allSplitChars
    let parts := scanPartsGo split_chars [] text.toList
    if parts.length ≤ 1 then [⟨start_ms, end_ms, text⟩]
    else
      let total_chars : Int := ((parts.map List.length).sum : Nat)
      setLastEnd end_ms (allocateParts start_ms end_ms total_chars start_ms parts)

/-- Adjacent-contiguity check for segments: each segment ends exactly where
    the next begins. -/
def contiguousSegs : List Segment → Bool
  | a :: b :: rest => decide (a.end_ms = b.start_ms) && contiguousSegs (b :: rest)
  | _ => true

/-- One audio frame `{'time_ms': ..., 'rms_db': ...}` as stored in
    `audio_features['frames']` (`audio_analyzer.py`). -/
structure AudioFrame where
  time_ms : Int
  rms_db : Rat
deriving DecidableEq, Repr

/-- The first loop of `_get_frames_in_range`: first index whose frame time
    is ≥ `start_ms`; defaults to 0 when no frame qualifies. -/
def startIdxOf (frames : List AudioFrame) (start_ms : Int) : Nat :=
  (frames.findIdx? (fun f => decide (f.time_ms ≥ start_ms))).getD 0

/-- The second loop of `_get_frames_in_range`: scans from the back for the
    last index whose frame time is ≤ `end_ms` and yields that index + 1;
    defaults to `len(frames)` when no frame qualifies. -/
def endIdxOf (frames : List AudioFrame) (end_ms : Int) : Nat :=
  match frames.reverse.findIdx? (fun f => decide (f.time_ms ≤ end_ms)) with
  | some k => frames.length - k
  | none => frames.length

/-- `_get_frames_in_range(start_ms, end_ms)`:
    `[f['rms_db'] for f in frames[start_idx:end_idx]]`. -/
def getFramesInRange (frames : List AudioFrame) (start_ms end_ms : Int) : List Rat :=
  let start_idx := startIdxOf frames start_ms
  let end_idx := endIdxOf frames end_ms
  ((frames.drop start_idx).take (end_idx - start_idx)).map AudioFrame.rms_db

/-- `extract_audio_features(start_ms, end_ms)` over the analyzer state:
    `none` models an analyzer whose feature load failed (the source then
    returns `[]`); `some frames` models loaded features (both a cache hit
    and a fresh extraction end in this state). -/
def extract_audio_features (features : Option (List AudioFrame)) (start_ms end_ms : Int) :
    List Rat :=
  match features with
  | none => []
  | some frames => getFramesInRange frames start_ms end_ms

/-- Frame order assumed by the data model (`time_ms` non-decreasing). -/
def framesSorted : List AudioFrame → Bool
  | a :: b :: rest => decide (a.time_ms ≤ b.time_ms) && framesSorted (b :: rest)
  | _ => true

/-- Predicate "frame lies before the window": `time_ms < start_ms`. -/
def frameBefore (start_ms : Int) : AudioFrame → Bool :=
  fun f => decide (f.time_ms < start_ms)

/-- Predicate "frame does not overshoot the window": `time_ms ≤ end_ms`. -/
def frameUpTo (end_ms : Int) : AudioFrame → Bool :=
  fun f => decide (f.time_ms ≤ end_ms)

/-- A concrete sorted two-frame store used by witnesses. -/
def c6demoFrames : List AudioFrame := [⟨0, -20⟩, ⟨1000, -50⟩]

/-- Exact rational addition through `mkRat` (definitionally equal to `+` by
    `Rat.add_def'`; spelled this way because the kernel can evaluate it). -/
def ratAdd (a b : Rat) : Rat :=
  mkRat (a.num * b.den + b.num * a.den) (a.den * b.den)

/-- Python `int(n * q)` for a natural `n` and rational `q`: truncation
    toward zero of the exact product. -/
def pyIntMulNat (q : Rat) (n : Nat) : Int := (q.num * n).tdiv q.den

/-- `_detect_speech_activity(rms_values, threshold_ratio)` of
    `audio_analyzer.py`:
      noise floor `sorted(rms)[:max(1, int(len*ratio))][-1]`,
      threshold `noise_floor + 10`,
      first/last index above the threshold (defaults 0 and `len-1`),
      degenerate-width guard `end = min(start+10, len-1)`. -/
def detect_speech_activity (rms_values : List Rat) (threshold_ratio : Rat) : Nat × Nat :=
  if rms_values = [] then (0, 0)
  else
    let k := (max 1 (pyIntMulNat threshold_ratio rms_values.length)).toNat
    let noise_floor := ((List.insertionSort (· ≤ ·) rms_values).take k).getLastD 0
    let threshold := ratAdd noise_floor 10
    let speech_start_idx := (rms_values.findIdx? (fun x => decide (x > threshold))).getD 0
    let speech_end_idx0 :=
      match rms_values.reverse.findIdx? (fun x => decide (x > threshold)) with
      | some k2 => rms_values.length - 1 - k2
      | none => rms_values.length - 1
    let speech_end_idx :=
      if speech_end_idx0 ≤ speech_start_idx then
        min (speech_start_idx + 10) (rms_values.length - 1)
      else speech_end_idx0
    (speech_start_idx, speech_end_idx)

/-- The same detector written from the specification's words: noise floor is
    the value at rank `max 1 ⌊len * threshold_ratio⌋` of the ascending-sorted
    list, the threshold is `noise_floor + 10 dB`, `start_index` is the first
    index whose value exceeds the threshold (0 if none), `end_index` the last
    such index (`len - 1` if none), with the same degenerate-width guard. -/
def detectSpeechActivitySpec (rms_values : List Rat) (threshold_ratio : Rat) : Nat × Nat :=
  if rms_values = [] then (0, 0)
  else
    let rank := (max 1 ⌊(rms_values.length : Rat) * threshold_ratio⌋).toNat
    let noise_floor := (List.insertionSort (· ≤ ·) rms_values).getD (rank - 1) 0
    let threshold := noise_floor + 10
    let above := fun x => decide (x > threshold)
    let start_index := if rms_values.any above then rms_values.findIdx above else 0
    let last_index :=
      if rms_values.reverse.any above then
        rms_values.length - 1 - rms_values.reverse.findIdx above
      else rms_values.length - 1
    let end_index :=
      if last_index ≤ start_index then
        min (start_index + 10) (rms_values.length - 1)
      else last_index
    (start_index, end_index)

/-- `detect_speech_boundaries(start_ms, end_ms)` with the default
    `threshold_ratio = 0.1`; index offsets are mapped back to time by
    `int((idx / total_frames) * duration)`, modelled as exact truncated
    division. -/
def detect_speech_boundaries (features : Option (List AudioFrame))
    (start_ms end_ms : Int) : Int × Int :=
  let rms_values := extract_audio_features features start_ms end_ms
  if rms_values = [] then (start_ms, end_ms)
  else
    let idxs := detect_speech_activity rms_values (mkRat 1 10)
    let duration_ms := end_ms - start_ms
    let total_frames : Int := rms_values.length
    let speech_start_offset := ((idxs.1 : Int) * duration_ms).tdiv total_frames
    let speech_end_offset := ((idxs.2 : Int) * duration_ms).tdiv total_frames
    (start_ms + speech_start_offset, start_ms + speech_end_offset)

/-- `adjust_subtitle_timing(subtitle_start, subtitle_end, max_delay_start,
    max_advance_end, min_duration)` of `audio_analyzer.py`. -/
def adjust_subtitle_timing (features : Option (List AudioFrame))
    (subtitle_start subtitle_end : Int)
    (max_delay_start max_advance_end min_duration : Int) : Int × Int :=
  let speech := detect_speech_boundaries features subtitle_start subtitle_end
  let new_start := min (subtitle_start + max_delay_start) speech.1
  let new_end := max (subtitle_end - max_advance_end) speech.2
  let new_end2 := if new_end - new_start < min_duration then new_start + min_duration else new_end
  let new_start3 := if new_start < subtitle_start then subtitle_start else new_start
  let new_end3 := if new_end2 > subtitle_end then subtitle_end else new_end2
  (new_start3, new_end3)

/-- Display order of a style in `style_config.py`. -/
inductive LangOrder
  | eng_first
  | chi_first
deriving DecidableEq, Repr

/-- The per-style knobs consumed by `generate_styled_ass`
    (`order`, `english_color`, `english_fontsize`). -/
structure StyleConfig where
  order : LangOrder
  english_color : Option String
  english_fontsize : Option Nat
deriving DecidableEq, Repr

/-- The `obama` style: English on top, no English overrides. -/
def obamaStyle : StyleConfig := ⟨LangOrder.eng_first, none, none⟩

/-- The `box_classic` style: Chinese on top, yellow 45-pt English. -/
def boxClassicStyle : StyleConfig := ⟨LangOrder.chi_first, some "&H00FFFF&", some 45⟩

/-- The per-language styling of `generate_styled_ass`: the colour wrap
    `{\c<colour>}` is applied first, then the font-size wrap `{\fs<size>}`
    is prepended. -/
def applyEnglishStyle (cfg : StyleConfig) (english : String) : String :=
  let e1 :=
    match cfg.english_color with
    | some col => "\x7b\\c" ++ col ++ "\x7d" ++ english
    | none => english
  match cfg.english_fontsize with
  | some fs => "\x7b\\fs" ++ toString fs ++ "\x7d" ++ e1
  | none => e1

/-- The dialogue-text assembly of `generate_styled_ass`: sequential appends
    guarded by Python truthiness (non-emptiness) of `eng_text`/`chi_text`,
    with the `\N` separator added only when both are non-empty. -/
def buildDialogueText (cfg : StyleConfig) (english chinese : String) : String :=
  let eng_text := applyEnglishStyle cfg english
  let chi_text := chinese
  match cfg.order with
  | LangOrder.eng_first =>
    (if eng_text ≠ "" then eng_text else "") ++
    (if eng_text ≠ "" ∧ chi_text ≠ "" then "\\N" else "") ++
    (if chi_text ≠ "" then chi_text else "")
  | LangOrder.chi_first =>
    (if chi_text ≠ "" then chi_text else "") ++
    (if eng_text ≠ "" ∧ chi_text ≠ "" then "\\N" else "") ++
    (if eng_text ≠ "" then eng_text else "")

/-- Concrete two-cue input whose overlap cannot be fully resolved
    (the 500 ms floor keeps the first cue past the second cue's start),
    used to witness the residual-overlap branch. -/
def c1demo : List Cue := [⟨0, 2000, "", ""⟩, ⟨100, 900, "", ""⟩]

/-- Relation between a cue before and after any number of `fix_overlaps`
    passes: the start (and text) is untouched, and the end is either
    untouched or was rewritten to a value at least `start + 500`. -/
def passRel (a b : Cue) : Prop :=
  b.start_ms = a.start_ms ∧ (b.end_ms = a.end_ms ∨ a.start_ms + 500 ≤ b.end_ms)

theorem fixPass_of_no_overlap (g : Int) :
    ∀ l : List Cue, hasOverlap g l = false → fixPass g l = l := by
  intro l
  induction l with
  | nil => intro _; rfl
  | cons c rest ih =>
    cases rest with
    | nil => intro _; rfl
    | cons d t =>
      intro h
      rw [hasOverlap] at h
      simp only [Bool.or_eq_false_iff, decide_eq_false_iff_not] at h
      rw [fixPass]
      simp only [if_neg h.1]
      rw [ih h.2]

theorem fixLoopCounted_le (g : Int) : ∀ (n : Nat) (l : List Cue),
    (fixLoopCounted g n l).2 ≤ n := by
  intro n
  induction n with
  | zero => intro l; simp [fixLoopCounted]
  | succ m ih =>
    intro l
    rw [fixLoopCounted]
    by_cases h : hasOverlap g l = true
    · simp only [h, if_true]
      exact Nat.succ_le_succ (ih _)
    · simp only [Bool.not_eq_true] at h
      simp [h]

theorem fixLoopCounted_early_exit (g : Int) : ∀ (n : Nat) (l : List Cue),
    (fixLoopCounted g n l).2 < n → hasOverlap g (fixLoopCounted g n l).1 = false := by
  intro n
  induction n with
  | zero => intro l h; omega
  | succ m ih =>
    intro l h
    rw [fixLoopCounted] at h ⊢
    by_cases hov : hasOverlap g l = true
    · simp only [hov, if_true] at h ⊢
      exact ih _ (by omega)
    · simp only [Bool.not_eq_true] at hov
      simp only [hov, Bool.false_eq_true, if_false] at h ⊢
      rw [fixPass_of_no_overlap g l hov]
      exact hov

/-- Characterisation of the pass update: the end time at position `i`
    is rewritten exactly when the pair `(i, i+1)` violates the gap, and
    then becomes `max (start + 500) (next_start - gap)`. -/
theorem fixPass_getElem (g : Int) :
    ∀ (l : List Cue) (i : Nat) (hi : i < l.length) (hi1 : i + 1 < l.length)
      (ho : i < (fixPass g l).length),
      (fixPass g l)[i] =
        (if l[i].end_ms > l[i + 1].start_ms - g then
          { l[i] with end_ms := max (l[i].start_ms + 500) (l[i + 1].start_ms - g) }
         else l[i]) := by
  intro l
  induction l with
  | nil => intro i hi; simp at hi
  | cons c rest ih =>
    intro i hi hi1 ho
    cases rest with
    | nil => simp at hi1
    | cons d t =>
      cases i with
      | zero => simp [fixPass]
      | succ j =>
        have hj : j < (d :: t).length := by simpa using hi
        have hj1 : j + 1 < (d :: t).length := by simpa using hi1
        have hoj : j < (fixPass g (d :: t)).length := by
          simp only [fixPass, List.length_cons] at ho
          simpa using ho
        have := ih j hj hj1 hoj
        simp only [fixPass]
        simpa using this

theorem fixPass_cons_shape (g : Int) (d : Cue) (rest : List Cue) :
    ∃ d2 tl, fixPass g (d :: rest) = d2 :: tl ∧ d2.start_ms = d.start_ms := by
  cases rest with
  | nil => exact ⟨d, [], rfl, rfl⟩
  | cons r rs =>
    refine ⟨if d.end_ms > r.start_ms - g then
        { d with end_ms := max (d.start_ms + 500) (r.start_ms - g) } else d,
      fixPass g (r :: rs), rfl, ?_⟩
    by_cases h : d.end_ms > r.start_ms - g <;> simp [h]

theorem fixPass_idem (g : Int) : ∀ l : List Cue, fixPass g (fixPass g l) = fixPass g l := by
  intro l
  induction l with
  | nil => rfl
  | cons c rest ih =>
    cases rest with
    | nil => rfl
    | cons d t =>
      obtain ⟨d2, tl, hshape, hstart⟩ := fixPass_cons_shape g d t
      have hdef : fixPass g (c :: d :: t) =
          (if c.end_ms > d.start_ms - g then
            { c with end_ms := max (c.start_ms + 500) (d.start_ms - g) } else c) ::
            fixPass g (d :: t) := rfl
      have htail : fixPass g (d2 :: tl) = d2 :: tl := by
        rw [← hshape, ih, hshape]
      by_cases hcond : c.end_ms > d.start_ms - g
      · rw [hdef, if_pos hcond, hshape]
        have hdef2 : fixPass g
            ({ c with end_ms := max (c.start_ms + 500) (d.start_ms - g) } :: d2 :: tl) =
            (if ({ c with end_ms := max (c.start_ms + 500) (d.start_ms - g) } : Cue).end_ms >
                d2.start_ms - g then
              { { c with end_ms := max (c.start_ms + 500) (d.start_ms - g) } with
                end_ms := max (c.start_ms + 500) (d2.start_ms - g) }
             else { c with end_ms := max (c.start_ms + 500) (d.start_ms - g) }) ::
              fixPass g (d2 :: tl) := rfl
        rw [hdef2, htail, hstart]
        by_cases h2 : max (c.start_ms + 500) (d.start_ms - g) > d.start_ms - g
        · rw [if_pos h2]
        · rw [if_neg h2]
      · rw [hdef, if_neg hcond, hshape]
        have hdef2 : fixPass g (c :: d2 :: tl) =
            (if c.end_ms > d2.start_ms - g then
              { c with end_ms := max (c.start_ms + 500) (d2.start_ms - g) } else c) ::
              fixPass g (d2 :: tl) := rfl
        rw [hdef2, htail, hstart, if_neg hcond]

theorem fixLoopCounted_isPassImage (g : Int) :
    ∀ (n : Nat) (l : List Cue), ∃ m, (fixLoopCounted g (n + 1) l).1 = fixPass g m := by
  intro n
  induction n with
  | zero =>
    intro l
    refine ⟨l, ?_⟩
    rw [fixLoopCounted]
    by_cases h : hasOverlap g l = true <;> simp [h, fixLoopCounted]
  | succ m ih =>
    intro l
    rw [fixLoopCounted]
    by_cases h : hasOverlap g l = true
    · simpa [h] using ih (fixPass g l)
    · exact ⟨l, by simp [h]⟩

theorem fixLoopCounted_fixed (g : Int) (r : List Cue) (hfix : fixPass g r = r) :
    ∀ n, (fixLoopCounted g n r).1 = r := by
  intro n
  induction n with
  | zero => rfl
  | succ m ih =>
    rw [fixLoopCounted]
    by_cases h : hasOverlap g r = true
    · simpa [h, hfix] using ih
    · simp [h, hfix]

theorem fix_overlaps_idem (g : Int) (l : List Cue) :
    fix_overlaps g (fix_overlaps g l) = fix_overlaps g l := by
  obtain ⟨m, hm⟩ := fixLoopCounted_isPassImage g 4 l
  have hm5 : fix_overlaps g l = fixPass g m := hm
  have hfix : fixPass g (fix_overlaps g l) = fix_overlaps g l := by
    rw [hm5, fixPass_idem]
  exact fixLoopCounted_fixed g _ hfix 5

theorem gentleLoop_cons_shape (g : Int) (c : Cue) (rest : List Cue) :
    ∃ c2 tl, fixOverlapsGentleLoop g (c :: rest) = c2 :: tl ∧ c2.start_ms = c.start_ms := by
  cases rest with
  | nil =>
    refine ⟨c, [], ?_, rfl⟩
    simp [fixOverlapsGentleLoop]
  | cons d t =>
    by_cases h1 : c.end_ms > d.start_ms - g
    · by_cases h2 : d.start_ms - g ≥ c.start_ms + 1000
      · refine ⟨{ c with end_ms := d.start_ms - g },
          fixOverlapsGentleLoop g (d :: t), ?_, rfl⟩
        rw [fixOverlapsGentleLoop]
        simp [h1, h2]
      · refine ⟨c, fixOverlapsGentleLoop g ({ d with start_ms := c.end_ms + g } :: t), ?_, rfl⟩
        rw [fixOverlapsGentleLoop]
        simp [h1, h2]
    · refine ⟨c, fixOverlapsGentleLoop g (d :: t), ?_, rfl⟩
      rw [fixOverlapsGentleLoop]
      simp [h1]

theorem gentleLoop_no_overlap_aux (g : Int) :
    ∀ (n : Nat) (l : List Cue), l.length ≤ n →
      hasOverlap g (fixOverlapsGentleLoop g l) = false := by
  intro n
  induction n with
  | zero =>
    intro l hl
    have : l = [] := List.length_eq_zero.1 (Nat.le_zero.1 hl)
    subst this
    simp [fixOverlapsGentleLoop, hasOverlap]
  | succ m ih =>
    intro l hl
    match l with
    | [] => simp [fixOverlapsGentleLoop, hasOverlap]
    | [c] => simp [fixOverlapsGentleLoop, hasOverlap]
    | c :: d :: t =>
      by_cases h1 : c.end_ms > d.start_ms - g
      · by_cases h2 : d.start_ms - g ≥ c.start_ms + 1000
        · obtain ⟨d2, tl, hshape, hstart⟩ := gentleLoop_cons_shape g d t
          have hrec := ih (d :: t) (by simp at hl ⊢; omega)
          have hstep : fixOverlapsGentleLoop g (c :: d :: t) =
              { c with end_ms := d.start_ms - g } :: fixOverlapsGentleLoop g (d :: t) := by
            rw [fixOverlapsGentleLoop]; simp [h1, h2]
          rw [hstep, hshape] at *
          rw [hshape] at hrec
          rw [hasOverlap]
          simp only [Bool.or_eq_false_iff, decide_eq_false_iff_not]
          exact ⟨by simp [hstart], hrec⟩
        · have hrec := ih ({ d with start_ms := c.end_ms + g } :: t)
            (by simp at hl ⊢; omega)
          obtain ⟨d2, tl, hshape, hstart⟩ :=
            gentleLoop_cons_shape g { d with start_ms := c.end_ms + g } t
          have hstep : fixOverlapsGentleLoop g (c :: d :: t) =
              c :: fixOverlapsGentleLoop g ({ d with start_ms := c.end_ms + g } :: t) := by
            rw [fixOverlapsGentleLoop]; simp [h1, h2]
          rw [hstep, hshape]
          rw [hshape] at hrec
          rw [hasOverlap]
          simp only [Bool.or_eq_false_iff, decide_eq_false_iff_not]
          exact ⟨by simp [hstart], hrec⟩
      · obtain ⟨d2, tl, hshape, hstart⟩ := gentleLoop_cons_shape g d t
        have hrec := ih (d :: t) (by simp at hl ⊢; omega)
        have hstep : fixOverlapsGentleLoop g (c :: d :: t) =
            c :: fixOverlapsGentleLoop g (d :: t) := by
          rw [fixOverlapsGentleLoop]; simp [h1]
        rw [hstep, hshape]
        rw [hshape] at hrec
        rw [hasOverlap]
        simp only [Bool.or_eq_false_iff, decide_eq_false_iff_not]
        exact ⟨by simp [hstart]; omega, hrec⟩

theorem gentleLoop_no_overlap (g : Int) (l : List Cue) :
    hasOverlap g (fixOverlapsGentleLoop g l) = false :=
  gentleLoop_no_overlap_aux g l.length l le_rfl

theorem gentleLoop_of_no_overlap (g : Int) :
    ∀ l : List Cue, hasOverlap g l = false → fixOverlapsGentleLoop g l = l := by
  intro l
  induction l with
  | nil => intro _; simp [fixOverlapsGentleLoop]
  | cons c rest ih =>
    cases rest with
    | nil => intro _; simp [fixOverlapsGentleLoop]
    | cons d t =>
      intro h
      rw [hasOverlap] at h
      simp only [Bool.or_eq_false_iff, decide_eq_false_iff_not] at h
      rw [fixOverlapsGentleLoop]
      simp only [if_neg h.1]
      rw [ih h.2]

theorem gentleLoop_length_aux (g : Int) :
    ∀ (n : Nat) (l : List Cue), l.length ≤ n →
      (fixOverlapsGentleLoop g l).length = l.length := by
  intro n
  induction n with
  | zero =>
    intro l hl
    have : l = [] := List.length_eq_zero.1 (Nat.le_zero.1 hl)
    subst this
    simp [fixOverlapsGentleLoop]
  | succ m ih =>
    intro l hl
    match l with
    | [] => simp [fixOverlapsGentleLoop]
    | [c] => simp [fixOverlapsGentleLoop]
    | c :: d :: t =>
      by_cases h1 : c.end_ms > d.start_ms - g
      · by_cases h2 : d.start_ms - g ≥ c.start_ms + 1000
        · have hstep : fixOverlapsGentleLoop g (c :: d :: t) =
              { c with end_ms := d.start_ms - g } :: fixOverlapsGentleLoop g (d :: t) := by
            rw [fixOverlapsGentleLoop]; simp [h1, h2]
          rw [hstep]
          have := ih (d :: t) (by simp at hl ⊢; omega)
          simp [this]
        · have hstep : fixOverlapsGentleLoop g (c :: d :: t) =
              c :: fixOverlapsGentleLoop g ({ d with start_ms := c.end_ms + g } :: t) := by
            rw [fixOverlapsGentleLoop]; simp [h1, h2]
          rw [hstep]
          have := ih ({ d with start_ms := c.end_ms + g } :: t) (by simp at hl ⊢; omega)
          simp [this]
      · have hstep : fixOverlapsGentleLoop g (c :: d :: t) =
            c :: fixOverlapsGentleLoop g (d :: t) := by
          rw [fixOverlapsGentleLoop]; simp [h1]
        rw [hstep]
        have := ih (d :: t) (by simp at hl ⊢; omega)
        simp [this]

theorem gentleLoop_length (g : Int) (l : List Cue) :
    (fixOverlapsGentleLoop g l).length = l.length :=
  gentleLoop_length_aux g l.length l le_rfl

theorem fix_overlaps_gentle_idem (g : Int) (l : List Cue) :
    fix_overlaps_gentle g (fix_overlaps_gentle g l) = fix_overlaps_gentle g l := by
  by_cases h : l.length ≤ 1
  · simp [fix_overlaps_gentle, h]
  · have h1 : fix_overlaps_gentle g l = fixOverlapsGentleLoop g l := by
      simp [fix_overlaps_gentle, h]
    rw [h1, fix_overlaps_gentle]
    rw [gentleLoop_length]
    simp only [h, if_false]
    exact gentleLoop_of_no_overlap g _ (gentleLoop_no_overlap g l)

/-- C1: after `fix_overlaps` (min_gap_ms = 100) returns, either every
    consecutive pair keeps the minimum gap or all 5 passes ran (a residual
    violation survives only when the pass budget is exhausted); and a pass
    rewrites an end time exactly to `next.start_ms - min_gap_ms` floored at
    `current.start_ms + 500`. -/
theorem C1_fix_overlaps_budget_and_update_rule :
    (∀ l : List Cue, sortedByStart l = true →
        hasOverlap 100 (fix_overlaps 100 l) = true → fixOverlapsPassCount 100 l = 5)
    ∧ (∀ (l : List Cue) (i : Nat) (hi : i < l.length) (hi1 : i + 1 < l.length)
        (ho : i < (fixPass 100 l).length),
        (fixPass 100 l)[i] =
          if l[i].end_ms > l[i + 1].start_ms - 100 then
            { l[i] with end_ms := max (l[i].start_ms + 500) (l[i + 1].start_ms - 100) }
          else l[i]) := by
  constructor
  · intro l _ hres
    have hle := fixLoopCounted_le 100 5 l
    by_cases h : (fixLoopCounted 100 5 l).2 < 5
    · have hearly := fixLoopCounted_early_exit 100 5 l h
      rw [fix_overlaps] at hres
      rw [hearly] at hres
      exact absurd hres (by simp)
    · have : (fixLoopCounted 100 5 l).2 = 5 := by omega
      exact this
  · exact fun l i hi hi1 ho => fixPass_getElem 100 l i hi hi1 ho

theorem C1_fix_overlaps_budget_and_update_rule_witness :
    sortedByStart c1demo = true ∧ hasOverlap 100 (fix_overlaps 100 c1demo) = true ∧
      fixOverlapsPassCount 100 c1demo = 5 :=
  ⟨by decide, by decide,
    C1_fix_overlaps_budget_and_update_rule.1 c1demo (by decide) (by decide)⟩

/-- C9: both overlap resolvers are idempotent — re-running `fix_overlaps`
    (its input is the sorted sequence) or `fix_overlaps_gentle` on its own
    output changes nothing. -/
theorem C9_overlap_resolvers_idempotent :
    (∀ (g : Int) (l : List Cue), sortedByStart l = true →
        fix_overlaps g (fix_overlaps g l) = fix_overlaps g l)
    ∧ (∀ (g : Int) (l : List Cue),
        fix_overlaps_gentle g (fix_overlaps_gentle g l) = fix_overlaps_gentle g l) :=
  ⟨fun g l _ => fix_overlaps_idem g l, fun g l => fix_overlaps_gentle_idem g l⟩

theorem C9_overlap_resolvers_idempotent_witness :
    sortedByStart c1demo = true ∧
      fix_overlaps 100 (fix_overlaps 100 c1demo) = fix_overlaps 100 c1demo ∧
      fix_overlaps_gentle 200 (fix_overlaps_gentle 200 c1demo) =
        fix_overlaps_gentle 200 c1demo :=
  ⟨by decide, C9_overlap_resolvers_idempotent.1 100 c1demo (by decide),
    C9_overlap_resolvers_idempotent.2 200 c1demo⟩

theorem fixPass_forall₂ (g : Int) :
    ∀ l : List Cue, List.Forall₂ passRel l (fixPass g l) := by
  intro l
  induction l with
  | nil => exact List.Forall₂.nil
  | cons c rest ih =>
    cases rest with
    | nil => exact List.Forall₂.cons ⟨rfl, Or.inl rfl⟩ List.Forall₂.nil
    | cons d t =>
      have hdef : fixPass g (c :: d :: t) =
          (if c.end_ms > d.start_ms - g then
            { c with end_ms := max (c.start_ms + 500) (d.start_ms - g) } else c) ::
            fixPass g (d :: t) := rfl
      rw [hdef]
      refine List.Forall₂.cons ?_ ih
      by_cases h : c.end_ms > d.start_ms - g
      · rw [if_pos h]
        exact ⟨rfl, Or.inr (le_max_left _ _)⟩
      · rw [if_neg h]
        exact ⟨rfl, Or.inl rfl⟩

theorem passRel_forall₂_trans : ∀ {l m n : List Cue},
    List.Forall₂ passRel l m → List.Forall₂ passRel m n → List.Forall₂ passRel l n := by
  intro l m n h1 h2
  induction h1 generalizing n with
  | nil => cases h2; exact List.Forall₂.nil
  | cons hab h ih =>
    cases h2 with
    | cons hbc h2t =>
      refine List.Forall₂.cons ?_ (ih h2t)
      obtain ⟨hs1, he1⟩ := hab
      obtain ⟨hs2, he2⟩ := hbc
      refine ⟨hs2.trans hs1, ?_⟩
      rcases he1 with he1 | he1
      · rcases he2 with he2 | he2
        · exact Or.inl (he2.trans he1)
        · exact Or.inr (by rw [hs1] at he2; exact he2)
      · rcases he2 with he2 | he2
        · exact Or.inr (by rw [he2]; exact he1)
        · exact Or.inr (by rw [hs1] at he2; exact he2)

theorem fixLoopCounted_forall₂ (g : Int) : ∀ (n : Nat) (l : List Cue),
    List.Forall₂ passRel l (fixLoopCounted g n l).1 := by
  intro n
  induction n with
  | zero =>
    intro l
    exact List.forall₂_same.2 (fun x _ => ⟨rfl, Or.inl rfl⟩)
  | succ m ih =>
    intro l
    rw [fixLoopCounted]
    by_cases h : hasOverlap g l = true
    · simp only [h, if_true]
      exact passRel_forall₂_trans (fixPass_forall₂ g l) (ih (fixPass g l))
    · simp only [Bool.not_eq_true] at h
      simp only [h, Bool.false_eq_true, if_false]
      exact fixPass_forall₂ g l

/-- C5 (amended): after `fix_overlaps` every cue keeps at least
    `min (original duration) 500` ms of display time — cues whose end the
    resolver rewrote get at least 500 ms, but untouched cues simply keep
    their original (possibly shorter) duration; the claimed unconditional
    `end_ms - start_ms ≥ 500` is false. -/
theorem C5_fix_overlaps_duration_floor_only_on_modified_cues
    (l : List Cue) (hs : sortedByStart l = true) :
    List.Forall₂ (fun a b => min (a.end_ms - a.start_ms) 500 ≤ b.end_ms - b.start_ms)
      l (fix_overlaps 100 l) := by
  have h := fixLoopCounted_forall₂ 100 5 l
  refine h.imp ?_
  intro a b hab
  obtain ⟨hs2, he⟩ := hab
  rcases he with he | he
  · rw [he, hs2]
    exact min_le_left _ _
  · have hmin := min_le_right (a.end_ms - a.start_ms) (500 : Int)
    omega

/-- C5 counterexample: a single 100 ms cue is returned unchanged by
    `fix_overlaps`, so its duration stays below the claimed 500 ms
    minimum. -/
theorem C5_fix_overlaps_duration_counterexample :
    fix_overlaps 100 [⟨0, 100, "", ""⟩] = [⟨0, 100, "", ""⟩] ∧
      ((fix_overlaps 100 [⟨0, 100, "", ""⟩]).headD ⟨0, 0, "", ""⟩).end_ms -
        ((fix_overlaps 100 [⟨0, 100, "", ""⟩]).headD ⟨0, 0, "", ""⟩).start_ms < 500 := by
  exact ⟨by decide, by decide⟩

theorem C5_fix_overlaps_duration_floor_only_on_modified_cues_witness :
    List.Forall₂ (fun a b => min (a.end_ms - a.start_ms) 500 ≤ b.end_ms - b.start_ms)
      [(⟨0, 100, "", ""⟩ : Cue)] (fix_overlaps 100 [⟨0, 100, "", ""⟩]) :=
  C5_fix_overlaps_duration_floor_only_on_modified_cues [⟨0, 100, "", ""⟩] (by decide)

theorem mergeLoop_flatten : ∀ (rest group : List SubtitleEntry) (text : String),
    (mergeLoop group text rest).flatten = group ++ rest := by
  intro rest
  induction rest with
  | nil =>
    intro group text
    by_cases h : group.isEmpty
    · rw [mergeLoop]
      simp [h, List.isEmpty_iff.1 h]
    · rw [mergeLoop]
      simp [h]
  | cons e rest ih =>
    intro group text
    rw [mergeLoop]
    by_cases h1 : (is_sentence_end text || text.endsWith "\"") = true
    · rw [if_pos h1]
      rw [List.flatten_cons, ih]
      simp
    · rw [if_neg h1]
      by_cases h2 : 5 ≤ (group ++ [e]).length
      · rw [if_pos h2]
        rw [List.flatten_cons, ih]
        simp
      · rw [if_neg h2]
        rw [ih]
        simp

/-- C2: the sentence merger neither drops nor duplicates fragments — the
    member groups flatten back to the input, hence the concatenation of all
    member texts equals the concatenation of all input texts, in order. -/
theorem C2_merge_completeness (entries : List SubtitleEntry) :
    (mergeGroups entries).flatten = entries ∧
      String.join ((mergeGroups entries).flatten.map SubtitleEntry.text) =
        String.join (entries.map SubtitleEntry.text) := by
  have h : (mergeGroups entries).flatten = entries := by
    cases entries with
    | nil => rfl
    | cons e rest =>
      rw [mergeGroups]
      rw [mergeLoop_flatten rest [e] e.text]
      simp
  exact ⟨h, by rw [h]⟩

theorem allocateParts_cons_shape (s e total : Int) (q : List Char) (rs : List (List Char))
    (cur : Int) :
    ∃ b tl, allocateParts s e total cur (q :: rs) = b :: tl ∧ b.start_ms = cur := by
  cases rs with
  | nil => exact ⟨⟨cur, e, String.mk q⟩, [], rfl, rfl⟩
  | cons r rr => exact ⟨_, _, rfl, rfl⟩

theorem allocateParts_head_start (s e total : Int) (parts : List (List Char)) (cur : Int)
    (dflt : Segment) (h : parts ≠ []) :
    ((allocateParts s e total cur parts).headD dflt).start_ms = cur := by
  cases parts with
  | nil => exact absurd rfl h
  | cons p rest =>
    cases rest with
    | nil => rfl
    | cons q rs => rfl

theorem allocateParts_last_end (s e total : Int) :
    ∀ (parts : List (List Char)) (cur : Int) (dflt : Segment), parts ≠ [] →
      ((allocateParts s e total cur parts).getLastD dflt).end_ms = e := by
  intro parts
  induction parts with
  | nil => intro cur dflt h; exact absurd rfl h
  | cons p rest ih =>
    intro cur dflt _
    cases rest with
    | nil => rfl
    | cons q rs =>
      simp only [allocateParts, List.getLastD_cons]
      exact ih _ _ (by simp)

theorem allocateParts_contiguous (s e total : Int) :
    ∀ (parts : List (List Char)) (cur : Int),
      contiguousSegs (allocateParts s e total cur parts) = true := by
  intro parts
  induction parts with
  | nil => intro cur; rfl
  | cons p rest ih =>
    intro cur
    cases rest with
    | nil => rfl
    | cons q rs =>
      simp only [allocateParts]
      obtain ⟨b, tl, hsh, hb⟩ := allocateParts_cons_shape s e total q rs
        (if cur + ((e - s) * (p.length : Int)).tdiv total - cur < 1000 then cur + 1000
         else cur + ((e - s) * (p.length : Int)).tdiv total)
      rw [hsh]
      rw [contiguousSegs]
      have htl := ih
        (if cur + ((e - s) * (p.length : Int)).tdiv total - cur < 1000 then cur + 1000
         else cur + ((e - s) * (p.length : Int)).tdiv total)
      rw [hsh] at htl
      simp [hb, htl]

theorem setLastEnd_allocateParts (s e total : Int) :
    ∀ (parts : List (List Char)) (cur : Int),
      setLastEnd e (allocateParts s e total cur parts) = allocateParts s e total cur parts := by
  intro parts
  induction parts with
  | nil => intro cur; rfl
  | cons p rest ih =>
    intro cur
    cases rest with
    | nil => rfl
    | cons q rs =>
      simp only [allocateParts]
      obtain ⟨b, tl, hsh, hb⟩ := allocateParts_cons_shape s e total q rs
        (if cur + ((e - s) * (p.length : Int)).tdiv total - cur < 1000 then cur + 1000
         else cur + ((e - s) * (p.length : Int)).tdiv total)
      rw [hsh]
      rw [setLastEnd]
      · rw [← hsh, ih]
      · simp

/-- C3: whenever `split_long_sentence_by_duration` returns more than one
    segment, the first segment starts at `start_ms`, the last segment ends
    at `end_ms`, and consecutive segments are exactly contiguous (each end
    equals the following start, so no gap at all, in particular none above
    1 ms per split point). -/
theorem C3_split_coverage (s e : Int) (t : String)
    (h : 1 < (split_long_sentence_by_duration s e t).length) :
    ((split_long_sentence_by_duration s e t).headD ⟨0, 0, ""⟩).start_ms = s ∧
      ((split_long_sentence_by_duration s e t).getLastD ⟨0, 0, ""⟩).end_ms = e ∧
      contiguousSegs (split_long_sentence_by_duration s e t) = true := by
  rw [split_long_sentence_by_duration] at h ⊢
  by_cases hd : e - s < 5000
  · rw [if_pos hd] at h
    simp at h
  · rw [if_neg hd] at h ⊢
    simp only at h ⊢
    by_cases hp : (scanPartsGo (if e - s < 10000 then majorSplitChars else allSplitChars)
        [] t.toList).length ≤ 1
    · rw [if_pos hp] at h
      simp at h
    · rw [if_neg hp] at h ⊢
      have hne : scanPartsGo (if e - s < 10000 then majorSplitChars else allSplitChars)
          [] t.toList ≠ [] := by
        intro hnil
        rw [hnil] at hp
        simp at hp
      rw [setLastEnd_allocateParts]
      refine ⟨allocateParts_head_start _ _ _ _ _ _ hne,
        allocateParts_last_end _ _ _ _ _ _ hne,
        allocateParts_contiguous _ _ _ _ _⟩

theorem C3_split_coverage_witness :
    1 < (split_long_sentence_by_duration 0 6000 "Hi. Yes.").length ∧
      (((split_long_sentence_by_duration 0 6000 "Hi. Yes.").headD ⟨0, 0, ""⟩).start_ms = 0 ∧
        ((split_long_sentence_by_duration 0 6000 "Hi. Yes.").getLastD ⟨0, 0, ""⟩).end_ms = 6000 ∧
        contiguousSegs (split_long_sentence_by_duration 0 6000 "Hi. Yes.") = true) :=
  ⟨by decide, C3_split_coverage 0 6000 "Hi. Yes." (by decide)⟩

/-- C10: there is an input of duration ≥ 5000 ms (here 5000 ms with seven
    punctuation-delimited parts) for which the splitter's propagated
    1000 ms minimum pushes `current_time` past `end_ms`, so the final
    returned segment has `end_ms < start_ms`. -/
theorem C10_split_can_invert_final_segment :
    ∃ (s e : Int) (t : String), e - s ≥ 5000 ∧
      (split_long_sentence_by_duration s e t).length = 7 ∧
      ((split_long_sentence_by_duration s e t).getLastD ⟨0, 0, ""⟩).end_ms <
        ((split_long_sentence_by_duration s e t).getLastD ⟨0, 0, ""⟩).start_ms :=
  ⟨0, 5000, "a.b.c.d.e.f.g.", by decide, by decide, by decide⟩

/-- C4: `adjust_subtitle_timing` never widens the original cue window —
    whatever the feature-store state and detected speech boundaries, the
    final clamps force `new_start ≥ subtitle_start` and
    `new_end ≤ subtitle_end`. -/
theorem C4_adjust_subtitle_timing_never_widens (features : Option (List AudioFrame))
    (subtitle_start subtitle_end : Int) (h : subtitle_start ≤ subtitle_end) :
    subtitle_start ≤
        (adjust_subtitle_timing features subtitle_start subtitle_end 500 300 1000).1 ∧
      (adjust_subtitle_timing features subtitle_start subtitle_end 500 300 1000).2 ≤
        subtitle_end := by
  rw [adjust_subtitle_timing]
  simp only [min_def, max_def]
  split_ifs <;> constructor <;> omega

theorem C4_adjust_subtitle_timing_never_widens_witness :
    (0 : Int) ≤ 5000 ∧
      (0 : Int) ≤ (adjust_subtitle_timing none 0 5000 500 300 1000).1 ∧
      (adjust_subtitle_timing none 0 5000 500 300 1000).2 ≤ 5000 :=
  ⟨by decide,
    (C4_adjust_subtitle_timing_never_widens none 0 5000 (by decide)).1,
    (C4_adjust_subtitle_timing_never_widens none 0 5000 (by decide)).2⟩

theorem findIdx?_eq_some_of_exists {α : Type} (p : α → Bool) :
    ∀ l : List α, (∃ x ∈ l, p x = true) →
      l.findIdx? p = some (l.takeWhile (fun x => ! p x)).length := by
  intro l
  induction l with
  | nil => intro h; simp at h
  | cons a t ih =>
    intro h
    by_cases hp : p a = true
    · simp [List.findIdx?_cons, List.takeWhile_cons, hp]
    · have hex : ∃ x ∈ t, p x = true := by
        obtain ⟨x, hx, hpx⟩ := h
        rcases List.mem_cons.1 hx with rfl | hx
        · exact absurd hpx hp
        · exact ⟨x, hx, hpx⟩
      simp [List.findIdx?_cons, List.takeWhile_cons, hp, ih hex]

theorem findIdx?_eq_none_of_all {α : Type} (p : α → Bool) :
    ∀ l : List α, (∀ x ∈ l, p x = false) → l.findIdx? p = none := by
  intro l
  induction l with
  | nil => intro _; rfl
  | cons a t ih =>
    intro h
    simp [List.findIdx?_cons, h a (by simp), ih (fun x hx => h x (by simp [hx]))]

theorem takeWhile_eq_nil_of_all {α : Type} (p : α → Bool) (l : List α)
    (h : ∀ x ∈ l, p x = false) : l.takeWhile p = [] := by
  cases l with
  | nil => rfl
  | cons a t => simp [List.takeWhile_cons, h a (by simp)]

theorem takeWhile_append_of_all {α : Type} (p : α → Bool) :
    ∀ (l1 l2 : List α), (∀ x ∈ l1, p x = true) →
      (l1 ++ l2).takeWhile p = l1 ++ l2.takeWhile p := by
  intro l1
  induction l1 with
  | nil => intro l2 _; simp
  | cons a t ih =>
    intro l2 h
    simp [List.takeWhile_cons, h a (by simp), ih l2 (fun x hx => h x (by simp [hx]))]

theorem take_takeWhile_length {α : Type} (p : α → Bool) :
    ∀ l : List α, l.take (l.takeWhile p).length = l.takeWhile p := by
  intro l
  induction l with
  | nil => rfl
  | cons a t ih =>
    by_cases hp : p a = true
    · simp [List.takeWhile_cons, hp, ih]
    · simp [List.takeWhile_cons, hp]

theorem drop_takeWhile_length {α : Type} (p : α → Bool) (l : List α) :
    l.drop (l.takeWhile p).length = l.dropWhile p := by
  have h := List.drop_left (l.takeWhile p) (l.dropWhile p)
  rw [List.takeWhile_append_dropWhile] at h
  exact h

theorem framesSorted_cons : ∀ (a : AudioFrame) (l : List AudioFrame),
    framesSorted (a :: l) = true →
    (∀ x ∈ l, a.time_ms ≤ x.time_ms) ∧ framesSorted l = true := by
  intro a l
  induction l generalizing a with
  | nil => intro _; exact ⟨by simp, rfl⟩
  | cons b t ih =>
    intro h
    rw [framesSorted] at h
    simp only [Bool.and_eq_true, decide_eq_true_eq] at h
    obtain ⟨hab, hbt⟩ := h
    obtain ⟨hall, _⟩ := ih b hbt
    refine ⟨?_, hbt⟩
    intro x hx
    rcases List.mem_cons.1 hx with rfl | hx
    · exact hab
    · exact le_trans hab (hall x hx)

theorem framesSorted_dropWhile (p : AudioFrame → Bool) :
    ∀ l : List AudioFrame, framesSorted l = true →
      framesSorted (l.dropWhile p) = true := by
  intro l
  induction l with
  | nil => intro _; rfl
  | cons a t ih =>
    intro h
    obtain ⟨_, ht⟩ := framesSorted_cons a t h
    by_cases hp : p a = true
    · rw [List.dropWhile_cons, if_pos hp]
      exact ih ht
    · rw [List.dropWhile_cons, if_neg (by simp [hp])]
      exact h

theorem dropWhile_upTo_all_gt (e : Int) :
    ∀ l : List AudioFrame, framesSorted l = true →
      ∀ x ∈ l.dropWhile (frameUpTo e), e < x.time_ms := by
  intro l
  induction l with
  | nil => intro _ x hx; simp at hx
  | cons a t ih =>
    intro h x hx
    obtain ⟨hall, ht⟩ := framesSorted_cons a t h
    by_cases hp : frameUpTo e a = true
    · rw [List.dropWhile_cons, if_pos hp] at hx
      exact ih ht x hx
    · rw [List.dropWhile_cons, if_neg (by simp [hp])] at hx
      have hae : ¬ (a.time_ms ≤ e) := by simpa [frameUpTo] using hp
      rcases List.mem_cons.1 hx with rfl | hx
      · omega
      · have := hall x hx
        omega

theorem filter_ge_eq_dropWhile (s : Int) :
    ∀ l : List AudioFrame, framesSorted l = true →
      l.filter (fun f => decide (s ≤ f.time_ms)) = l.dropWhile (frameBefore s) := by
  intro l
  induction l with
  | nil => intro _; rfl
  | cons a t ih =>
    intro h
    obtain ⟨hall, ht⟩ := framesSorted_cons a t h
    by_cases hp : a.time_ms < s
    · rw [List.filter_cons, List.dropWhile_cons]
      have h1 : (decide (s ≤ a.time_ms)) = false := by simp; omega
      have h2 : frameBefore s a = true := by simp [frameBefore]; omega
      simp only [h1, h2, if_true, Bool.false_eq_true, if_false]
      exact ih ht
    · rw [List.filter_cons, List.dropWhile_cons]
      have h1 : (decide (s ≤ a.time_ms)) = true := by simp; omega
      have h2 : frameBefore s a = false := by simp [frameBefore]; omega
      simp only [h1, h2, if_true, Bool.false_eq_true, if_false]
      congr 1
      refine List.filter_eq_self.2 ?_
      intro x hx
      have := hall x hx
      simp
      omega

theorem filter_le_eq_takeWhile (e : Int) :
    ∀ l : List AudioFrame, framesSorted l = true →
      l.filter (frameUpTo e) = l.takeWhile (frameUpTo e) := by
  intro l
  induction l with
  | nil => intro _; rfl
  | cons a t ih =>
    intro h
    obtain ⟨hall, ht⟩ := framesSorted_cons a t h
    by_cases hp : frameUpTo e a = true
    · rw [List.filter_cons, List.takeWhile_cons, if_pos hp]
      simp only [hp, if_true]
      rw [ih ht]
    · have hp2 : frameUpTo e a = false := by simp [hp]
      rw [List.filter_cons, List.takeWhile_cons]
      simp only [hp2, Bool.false_eq_true, if_false]
      have hae : ¬ (a.time_ms ≤ e) := by simpa [frameUpTo] using hp
      refine List.filter_eq_nil_iff.2 ?_
      intro x hx
      have := hall x hx
      simp [frameUpTo]
      omega

theorem takeWhile_dropWhile_take (s e : Int) :
    ∀ l : List AudioFrame, framesSorted l = true →
      (l.dropWhile (frameBefore s)).takeWhile (frameUpTo e) =
        (l.dropWhile (frameBefore s)).take
          ((l.takeWhile (frameUpTo e)).length - (l.takeWhile (frameBefore s)).length) := by
  intro l
  induction l with
  | nil => intro _; rfl
  | cons a t ih =>
    intro h
    obtain ⟨hall, ht⟩ := framesSorted_cons a t h
    by_cases has : frameBefore s a = true
    · by_cases hae : frameUpTo e a = true
      · simp only [List.dropWhile_cons, List.takeWhile_cons, has, hae, if_true,
          List.length_cons, Nat.succ_sub_succ]
        exact ih ht
      · have hae2 : frameUpTo e a = false := by simp [hae]
        have hgt : ∀ x ∈ a :: t, frameUpTo e x = false := by
          intro x hx
          have hane : ¬ (a.time_ms ≤ e) := by simpa [frameUpTo] using hae
          rcases List.mem_cons.1 hx with rfl | hx
          · exact hae2
          · have := hall x hx
            simp [frameUpTo]
            omega
        have hsub : ∀ x ∈ (a :: t).dropWhile (frameBefore s), frameUpTo e x = false := by
          intro x hx
          exact hgt x ((List.dropWhile_suffix (frameBefore s)).sublist.subset hx)
        rw [takeWhile_eq_nil_of_all _ _ hsub]
        rw [takeWhile_eq_nil_of_all _ _ hgt]
        simp
    · have has2 : frameBefore s a = false := by simp [has]
      rw [List.dropWhile_cons, if_neg (by simp [has2])]
      rw [show (a :: t).takeWhile (frameBefore s) = [] from by
        rw [List.takeWhile_cons]; simp [has2]]
      simp only [List.length_nil, Nat.sub_zero]
      exact (take_takeWhile_length _ _).symm

theorem startIdxOf_eq (frames : List AudioFrame) (s : Int)
    (hex : ∃ f ∈ frames, s ≤ f.time_ms) :
    startIdxOf frames s = (frames.takeWhile (frameBefore s)).length := by
  rw [startIdxOf]
  rw [findIdx?_eq_some_of_exists _ frames (by
    obtain ⟨f, hf, hfe⟩ := hex
    exact ⟨f, hf, by simp [hfe]⟩)]
  simp only [Option.getD_some]
  congr 1
  have hpred : (fun x : AudioFrame => ! decide (x.time_ms ≥ s)) = frameBefore s := by
    funext f
    by_cases hfs : s ≤ f.time_ms <;> simp [frameBefore, hfs] <;> omega
  rw [hpred]

theorem endIdxOf_eq (frames : List AudioFrame) (e : Int)
    (hs : framesSorted frames = true) (hex : ∃ f ∈ frames, f.time_ms ≤ e) :
    endIdxOf frames e = (frames.takeWhile (frameUpTo e)).length := by
  have hPS : frames.takeWhile (frameUpTo e) ++ frames.dropWhile (frameUpTo e) = frames :=
    List.takeWhile_append_dropWhile _ _
  have hSgt : ∀ x ∈ frames.dropWhile (frameUpTo e), frameUpTo e x = false := by
    intro x hx
    have := dropWhile_upTo_all_gt e frames hs x hx
    simp [frameUpTo]
    omega
  have hPtrue : ∀ x ∈ frames.takeWhile (frameUpTo e), frameUpTo e x = true := by
    intro x hx
    exact List.mem_takeWhile_imp hx
  have hrev : frames.reverse = (frames.dropWhile (frameUpTo e)).reverse ++
      (frames.takeWhile (frameUpTo e)).reverse := by
    rw [← List.reverse_append, hPS]
  have hfind : frames.reverse.findIdx? (fun f => decide (f.time_ms ≤ e)) =
      some ((frames.dropWhile (frameUpTo e)).reverse.length) := by
    rw [findIdx?_eq_some_of_exists _ _ (by
      obtain ⟨f, hf, hfe⟩ := hex
      exact ⟨f, List.mem_reverse.2 hf, by simp [hfe]⟩)]
    congr 1
    have hpred : (fun x : AudioFrame => ! decide (x.time_ms ≤ e)) =
        (fun x => ! frameUpTo e x) := rfl
    rw [hpred, hrev]
    rw [takeWhile_append_of_all _ _ _ (by
      intro x hx
      simp [hSgt x (List.mem_reverse.1 hx)])]
    rw [takeWhile_eq_nil_of_all _ _ (by
      intro x hx
      simp [hPtrue x (List.mem_reverse.1 hx)])]
    simp
  rw [endIdxOf, hfind]
  have hlen : (frames.takeWhile (frameUpTo e)).length +
      (frames.dropWhile (frameUpTo e)).length = frames.length := by
    rw [← List.length_append, hPS]
  simp only [List.length_reverse]
  omega

/-- C6 (amended): over a sorted frame store, the slice returns exactly the
    energies of the frames with `time_ms ∈ [start_ms, end_ms]` whenever some
    frame reaches `start_ms` and some frame stays within `end_ms` (and it is
    empty when that set is empty, e.g. a window falling between two frames);
    but when the window lies entirely after the last frame or entirely
    before the first frame, the loop defaults (`start_idx = 0`,
    `end_idx = len`) make it return ALL frame energies, not the claimed
    empty sequence. -/
theorem C6_frame_range_slice (frames : List AudioFrame) (hs : framesSorted frames = true)
    (s e : Int) :
    ((∃ f ∈ frames, s ≤ f.time_ms) → (∃ f ∈ frames, f.time_ms ≤ e) →
      extract_audio_features (some frames) s e =
        (frames.filter (fun f => decide (s ≤ f.time_ms) && decide (f.time_ms ≤ e))).map
          AudioFrame.rms_db)
    ∧ ((∀ f ∈ frames, f.time_ms < s) → s ≤ e →
        extract_audio_features (some frames) s e = frames.map AudioFrame.rms_db)
    ∧ ((∀ f ∈ frames, e < f.time_ms) → s ≤ e →
        extract_audio_features (some frames) s e = frames.map AudioFrame.rms_db) := by
  refine ⟨?_, ?_, ?_⟩
  · intro hge hle
    show getFramesInRange frames s e = _
    rw [getFramesInRange]
    rw [startIdxOf_eq frames s hge, endIdxOf_eq frames e hs hle]
    rw [drop_takeWhile_length]
    rw [← takeWhile_dropWhile_take s e frames hs]
    congr 1
    have hsplit : frames.filter (fun f => decide (s ≤ f.time_ms) && decide (f.time_ms ≤ e)) =
        (frames.filter (fun f => decide (s ≤ f.time_ms))).filter (frameUpTo e) := by
      rw [List.filter_filter]
      congr 1
      funext f
      rw [frameUpTo]
      exact Bool.and_comm _ _
    rw [hsplit, filter_ge_eq_dropWhile s frames hs,
      filter_le_eq_takeWhile e _ (framesSorted_dropWhile _ frames hs)]
  · intro hall hse
    show getFramesInRange frames s e = _
    cases frames with
    | nil => rfl
    | cons a t =>
      rw [getFramesInRange]
      have h0 : startIdxOf (a :: t) s = 0 := by
        rw [startIdxOf, findIdx?_eq_none_of_all _ _ (by
          intro x hx
          have := hall x hx
          simp
          omega)]
        rfl
      have hb : endIdxOf (a :: t) e = (a :: t).length := by
        rw [endIdxOf, findIdx?_eq_some_of_exists _ _
          (⟨a, by simp, by have := hall a (by simp); simp; omega⟩ :
            ∃ x ∈ (a :: t).reverse, decide (x.time_ms ≤ e) = true)]
        rw [takeWhile_eq_nil_of_all _ _ (by
          intro x hx
          have := hall x (List.mem_reverse.1 hx)
          simp
          omega)]
        simp
      rw [h0, hb]
      simp
  · intro hall hse
    show getFramesInRange frames s e = _
    cases frames with
    | nil => rfl
    | cons a t =>
      rw [getFramesInRange]
      have h0 : startIdxOf (a :: t) s = 0 := by
        rw [startIdxOf, findIdx?_eq_some_of_exists _ _
          (⟨a, by simp, by have := hall a (by simp); simp; omega⟩ :
            ∃ x ∈ a :: t, decide (x.time_ms ≥ s) = true)]
        rw [takeWhile_eq_nil_of_all _ _ (by
          intro x hx
          have := hall x hx
          simp
          omega)]
        rfl
      have hb : endIdxOf (a :: t) e = (a :: t).length := by
        rw [endIdxOf, findIdx?_eq_none_of_all _ _ (by
          intro x hx
          have := hall x (List.mem_reverse.1 hx)
          simp
          omega)]
      rw [h0, hb]
      simp

/-- C6 counterexample: a window lying entirely after the single frame
    contains no frame at all, yet the slice returns that frame's energy
    instead of the empty sequence. -/
theorem C6_frame_range_slice_counterexample :
    (([⟨100, -30⟩] : List AudioFrame).filter
        (fun f => decide (200 ≤ f.time_ms) && decide (f.time_ms ≤ 300))) = [] ∧
      extract_audio_features (some [⟨100, -30⟩]) 200 300 = [-30] :=
  ⟨by decide, by decide⟩

theorem C6_frame_range_slice_witness :
    framesSorted c6demoFrames = true ∧
      extract_audio_features (some c6demoFrames) 0 500 =
        (c6demoFrames.filter
          (fun f => decide ((0:Int) ≤ f.time_ms) && decide (f.time_ms ≤ 500))).map
          AudioFrame.rms_db :=
  ⟨by decide,
    (C6_frame_range_slice c6demoFrames (by decide) 0 500).1
      (by decide) (by decide)⟩

theorem findIdx?_eq_some_findIdx {α : Type} (p : α → Bool) :
    ∀ l : List α, l.any p = true → l.findIdx? p = some (l.findIdx p) := by
  intro l
  induction l with
  | nil => intro h; simp at h
  | cons a t ih =>
    intro h
    by_cases hp : p a = true
    · simp [List.findIdx?_cons, List.findIdx_cons, hp]
    · rw [List.any_cons] at h
      simp only [hp, Bool.false_or] at h
      simp [List.findIdx?_cons, List.findIdx_cons, hp, ih h]

theorem findIdx?_eq_none_of_any_eq_false {α : Type} (p : α → Bool) (l : List α)
    (h : l.any p = false) : l.findIdx? p = none := by
  refine findIdx?_eq_none_of_all p l ?_
  intro x hx
  by_contra hc
  have hx2 : p x = true := by simpa using hc
  have : l.any p = true := List.any_eq_true.2 ⟨x, hx, hx2⟩
  rw [this] at h
  cases h

theorem of_findIdx?_eq_some {α : Type} (p : α → Bool) (l : List α) (k : Nat)
    (h : l.findIdx? p = some k) : l.any p = true ∧ l.findIdx p = k := by
  by_cases ha : l.any p = true
  · rw [findIdx?_eq_some_findIdx p l ha] at h
    exact ⟨ha, Option.some.inj h⟩
  · rw [findIdx?_eq_none_of_any_eq_false p l (by simpa using ha)] at h
    cases h

theorem of_findIdx?_eq_none {α : Type} (p : α → Bool) (l : List α)
    (h : l.findIdx? p = none) : l.any p = false := by
  by_cases ha : l.any p = true
  · rw [findIdx?_eq_some_findIdx p l ha] at h
    cases h
  · simpa using ha

theorem getLastD_default_irrel {α : Type} (l : List α) (h : l ≠ []) (d1 d2 : α) :
    l.getLastD d1 = l.getLastD d2 := by
  cases l with
  | nil => exact absurd rfl h
  | cons a t => rw [List.getLastD_cons, List.getLastD_cons]

theorem take_getLastD_eq_getD {α : Type} (d : α) :
    ∀ (l : List α) (k : Nat), 1 ≤ k → k ≤ l.length →
      (l.take k).getLastD d = l.getD (k - 1) d := by
  intro l
  induction l with
  | nil =>
    intro k h1 h2
    simp at h2
    omega
  | cons a t ih =>
    intro k h1 h2
    match k with
    | 0 => omega
    | 1 => simp
    | (j + 2) =>
      have h2t : j + 1 ≤ t.length := by simpa using h2
      rw [List.take_succ_cons, List.getLastD_cons]
      show (t.take (j + 1)).getLastD a = (a :: t).getD (j + 1) d
      rw [List.getD_cons_succ]
      have hne : t.take (j + 1) ≠ [] := by
        intro hnil
        have hlen := List.length_take (j + 1) t
        rw [hnil] at hlen
        simp at hlen
        omega
      rw [getLastD_default_irrel (t.take (j + 1)) hne a d]
      exact ih (j + 1) (by omega) h2t

theorem floor_mkRat (m : Int) (d : Nat) : ⌊mkRat m d⌋ = m / (d : Int) := by
  rw [Rat.mkRat_eq_divInt, Rat.divInt_eq_div, Int.cast_natCast]
  exact Rat.floor_intCast_div_natCast m d

theorem pyIntMulNat_eq_floor (q : Rat) (n : Nat) (h : 0 ≤ q) :
    pyIntMulNat q n = ⌊(n : Rat) * q⌋ := by
  rw [pyIntMulNat]
  have hmul : (n : Rat) * q = mkRat (q.num * n) q.den := by
    rw [Rat.mul_def, Rat.normalize_eq_mkRat]
    simp [Int.mul_comm]
  rw [hmul, floor_mkRat]
  exact Int.tdiv_eq_ediv (by positivity) (by positivity)

theorem floor_mul_le (n : Nat) (q : Rat) (hq : q ≤ 1) : ⌊(n : Rat) * q⌋ ≤ (n : Int) := by
  calc ⌊(n : Rat) * q⌋ ≤ ⌊(n : Rat) * 1⌋ := by
        apply Int.floor_le_floor
        have hn : (0 : Rat) ≤ (n : Rat) := by positivity
        nlinarith
    _ = n := by simp

theorem ratAdd_eq_add (a b : Rat) : ratAdd a b = a + b := (Rat.add_def' a b).symm

/-- C7: the detector computes exactly the rank-based noise floor
    (`max (1, ⌊len·ratio⌋)`-th smallest energy), a `+10 dB` threshold, and
    first/last-above indices with the degenerate-width guard, as the
    specification words it; on `[-50,-48,-10,-8,-9,-45]` with ratio `1/10`
    it returns `(2, 4)` and on the empty list `(0, 0)`. -/
theorem C7_detect_speech_activity_matches_spec :
    (∀ (rms_values : List Rat) (threshold_ratio : Rat),
        0 ≤ threshold_ratio → threshold_ratio ≤ 1 →
        detect_speech_activity rms_values threshold_ratio =
          detectSpeechActivitySpec rms_values threshold_ratio)
    ∧ detect_speech_activity [-50, -48, -10, -8, -9, -45] (mkRat 1 10) = (2, 4)
    ∧ detect_speech_activity [] (mkRat 1 10) = (0, 0) := by
  refine ⟨?_, by decide, by decide⟩
  intro rms ratio h0 h1
  by_cases hnil : rms = []
  · rw [detect_speech_activity, detectSpeechActivitySpec, if_pos hnil, if_pos hnil]
  · simp only [detect_speech_activity, detectSpeechActivitySpec, if_neg hnil]
    have hk : pyIntMulNat ratio rms.length = ⌊(rms.length : Rat) * ratio⌋ :=
      pyIntMulNat_eq_floor ratio rms.length h0
    rw [hk]
    have hlen : 1 ≤ rms.length := by
      cases rms with
      | nil => exact absurd rfl hnil
      | cons a t => simp
    have hkb : 1 ≤ (max 1 ⌊(rms.length : Rat) * ratio⌋).toNat := by
      have h2 : (1 : Int) ≤ max 1 ⌊(rms.length : Rat) * ratio⌋ := le_max_left _ _
      omega
    have hkub : (max 1 ⌊(rms.length : Rat) * ratio⌋).toNat ≤
        (List.insertionSort (· ≤ ·) rms).length := by
      rw [List.length_insertionSort]
      have hfl : ⌊(rms.length : Rat) * ratio⌋ ≤ (rms.length : Int) := floor_mul_le _ _ h1
      have h1n : (1 : Int) ≤ (rms.length : Int) := by exact_mod_cast hlen
      omega
    rw [take_getLastD_eq_getD 0 _ _ hkb hkub]
    rw [ratAdd_eq_add]
    rcases hfs : rms.findIdx? (fun x => decide (x >
        (List.insertionSort (· ≤ ·) rms).getD
          ((max 1 ⌊(rms.length : Rat) * ratio⌋).toNat - 1) 0 + 10)) with _ | i
    · have hany := of_findIdx?_eq_none _ rms hfs
      rcases hfr : rms.reverse.findIdx? (fun x => decide (x >
          (List.insertionSort (· ≤ ·) rms).getD
            ((max 1 ⌊(rms.length : Rat) * ratio⌋).toNat - 1) 0 + 10)) with _ | k
      · have hany2 := of_findIdx?_eq_none _ rms.reverse hfr
        have hc1 : ¬ ((rms.any fun x => decide (x >
            (List.insertionSort (· ≤ ·) rms).getD
              ((max 1 ⌊(rms.length : Rat) * ratio⌋).toNat - 1) 0 + 10)) = true) := by
          rw [hany]
          exact Bool.false_ne_true
        have hc2 : ¬ ((rms.reverse.any fun x => decide (x >
            (List.insertionSort (· ≤ ·) rms).getD
              ((max 1 ⌊(rms.length : Rat) * ratio⌋).toNat - 1) 0 + 10)) = true) := by
          rw [hany2]
          exact Bool.false_ne_true
        rw [if_neg hc1, if_neg hc2]
        rfl
      · obtain ⟨hany2, hfind2⟩ := of_findIdx?_eq_some _ rms.reverse k hfr
        have hc1 : ¬ ((rms.any fun x => decide (x >
            (List.insertionSort (· ≤ ·) rms).getD
              ((max 1 ⌊(rms.length : Rat) * ratio⌋).toNat - 1) 0 + 10)) = true) := by
          rw [hany]
          exact Bool.false_ne_true
        rw [if_neg hc1, if_pos hany2, hfind2]
        rfl
    · obtain ⟨hany, hfind⟩ := of_findIdx?_eq_some _ rms i hfs
      rcases hfr : rms.reverse.findIdx? (fun x => decide (x >
          (List.insertionSort (· ≤ ·) rms).getD
            ((max 1 ⌊(rms.length : Rat) * ratio⌋).toNat - 1) 0 + 10)) with _ | k
      · have hany2 := of_findIdx?_eq_none _ rms.reverse hfr
        have hc2 : ¬ ((rms.reverse.any fun x => decide (x >
            (List.insertionSort (· ≤ ·) rms).getD
              ((max 1 ⌊(rms.length : Rat) * ratio⌋).toNat - 1) 0 + 10)) = true) := by
          rw [hany2]
          exact Bool.false_ne_true
        rw [if_pos hany, hfind, if_neg hc2]
        rfl
      · obtain ⟨hany2, hfind2⟩ := of_findIdx?_eq_some _ rms.reverse k hfr
        rw [if_pos hany, hfind, if_pos hany2, hfind2]
        rfl

theorem C7_detect_speech_activity_matches_spec_witness :
    (0 : Rat) ≤ mkRat 1 10 ∧ mkRat 1 10 ≤ 1 ∧
      detect_speech_activity [-50, -48, -10, -8, -9, -45] (mkRat 1 10) =
        detectSpeechActivitySpec [-50, -48, -10, -8, -9, -45] (mkRat 1 10) :=
  ⟨by decide, by decide,
    C7_detect_speech_activity_matches_spec.1 [-50, -48, -10, -8, -9, -45] (mkRat 1 10)
      (by decide) (by decide)⟩

theorem string_append_ne_empty_right (a b : String) (h : b ≠ "") : a ++ b ≠ "" := by
  intro hc
  rw [String.ext_iff, String.data_append] at hc
  simp only [List.append_eq_nil] at hc
  exact h (String.ext_iff.2 (by simpa using hc.2))

theorem applyEnglishStyle_ne_empty (cfg : StyleConfig) (english : String)
    (h : english ≠ "") : applyEnglishStyle cfg english ≠ "" := by
  rw [applyEnglishStyle]
  cases hc : cfg.english_color with
  | none =>
    cases hf : cfg.english_fontsize with
    | none => exact h
    | some fs => exact string_append_ne_empty_right _ _ h
  | some col =>
    cases hf : cfg.english_fontsize with
    | none => exact string_append_ne_empty_right _ _ h
    | some fs =>
      exact string_append_ne_empty_right _ _ (string_append_ne_empty_right _ _ h)

theorem applyEnglishStyle_no_hooks (cfg : StyleConfig) (english : String)
    (hc : cfg.english_color = none) (hf : cfg.english_fontsize = none) :
    applyEnglishStyle cfg english = english := by
  rw [applyEnglishStyle, hc, hf]

/-- C8 (amended): the dialogue-text assembly joins the two language lines
    with `\N` in the configured order, and an empty language field is
    dropped without a dangling separator — provided the English field is
    non-empty or the style defines no English colour/font-size hook.  With
    a hook (as in `box_classic`) an empty English text still renders as a
    non-empty style-directive string, so the separator logic treats it as
    present (see the counterexample). -/
theorem C8_bilingual_text_assembly (cfg : StyleConfig) (english chinese : String) :
    (english ≠ "" → chinese ≠ "" →
      buildDialogueText cfg english chinese =
        (match cfg.order with
         | LangOrder.eng_first => applyEnglishStyle cfg english ++ "\\N" ++ chinese
         | LangOrder.chi_first => chinese ++ "\\N" ++ applyEnglishStyle cfg english))
    ∧ (chinese = "" → buildDialogueText cfg english chinese = applyEnglishStyle cfg english)
    ∧ (english = "" → cfg.english_color = none → cfg.english_fontsize = none →
        buildDialogueText cfg english chinese = chinese) := by
  refine ⟨?_, ?_, ?_⟩
  · intro he hc
    have heng : applyEnglishStyle cfg english ≠ "" := applyEnglishStyle_ne_empty cfg english he
    rw [buildDialogueText]
    cases cfg.order with
    | eng_first => simp [heng, hc]
    | chi_first => simp [heng, hc]
  · intro hc
    subst hc
    rw [buildDialogueText]
    cases cfg.order with
    | eng_first =>
      by_cases he : applyEnglishStyle cfg english = ""
      · simp [he]
      · simp [he]
    | chi_first =>
      by_cases he : applyEnglishStyle cfg english = ""
      · simp [he]
      · simp [he]
  · intro he hcol hfs
    subst he
    have heng : applyEnglishStyle cfg "" = "" := applyEnglishStyle_no_hooks cfg "" hcol hfs
    rw [buildDialogueText]
    cases cfg.order with
    | eng_first =>
      by_cases hc : chinese = ""
      · simp [heng, hc]
      · simp [heng, hc]
    | chi_first =>
      by_cases hc : chinese = ""
      · simp [heng, hc]
      · simp [heng, hc]

/-- C8 counterexample: with the `box_classic` hooks and an empty English
    field, the rendered text carries a dangling `\N` followed by a
    style-directive-only line instead of just the Chinese text. -/
theorem C8_bilingual_text_assembly_counterexample :
    buildDialogueText boxClassicStyle "" "你好" =
        "你好" ++ "\\N" ++ "\x7b\\fs45\x7d\x7b\\c&H00FFFF&\x7d" ∧
      buildDialogueText boxClassicStyle "" "你好" ≠ "你好" :=
  ⟨by decide, by decide⟩

theorem C8_bilingual_text_assembly_witness :
    buildDialogueText obamaStyle "Hello" "你好" =
      applyEnglishStyle obamaStyle "Hello" ++ "\\N" ++ "你好" :=
  (C8_bilingual_text_assembly obamaStyle "Hello" "你好").1 (by decide) (by decide)

end YtScraper
